import Mathlib

/-!
Shallow embedding of the Soroban document-registry contract
(`src/contracts/src/lib.rs`, `DocumentVerificationContract`).

Modelling choices:
- A contract `Address` is opaque to the registry; it is modelled as a `String`.
- The persistent/instance storage slots (`DOCS`, `COUNT`, and the per-user
  `(USERDOCS, addr)` keys) are modelled as `Option`-valued fields of
  `RegistryState`: `none` models an absent slot, and every read applies the
  source's `unwrap_or` default, exactly as the Rust code does.
- `soroban_sdk::Map<String, DocumentRecord>` is modelled as an association
  list with `get` / `contains_key` / `set` (set replaces the entry if the key
  is present, otherwise appends); `soroban_sdk::Vec<String>` as `List String`
  with `push_back` as append.
- `caller.require_auth()` traps on failure (the host aborts the invocation
  with no state change), so the embedding models the authorized executions;
  the event published on success carries no state and is not modelled.
- `u64` counters are modelled as `Nat`: the counter increases by one per
  successful registration, so reaching `2^64` would take `2^64` successful
  calls, and Soroban contract builds trap (abort with no state change) on
  overflow rather than wrap.
-/

abbrev Addr := String
structure DocumentRecord where
  document_hash : String
  document_name : String
  registered_by : Addr
  timestamp : Nat
  block_number : Nat
deriving DecidableEq, Repr
structure DocumentInfo where
  «exists» : Bool
  record : Option DocumentRecord
deriving DecidableEq, Repr

inductive ContractError where
  | InvalidHashLength
  | InvalidDocumentName
  | DocumentAlreadyExists
deriving DecidableEq, Repr
/-- The `DOCS` storage slot: `Map<String, DocumentRecord>` as an assoc list. -/
abbrev DocMap := List (String × DocumentRecord)
/-- Model of `Map::get` — value of the first entry whose key equals `k`. -/
def mapGet (m : DocMap) (k : String) : Option DocumentRecord :=
  (m.find? fun p => p.1 == k).map Prod.snd
/-- Model of `Map::contains_key`. -/
def containsKey (m : DocMap) (k : String) : Bool :=
  m.any fun p => p.1 == k
/-- Model of `Map::set` — replace the entry at `k` if present, otherwise add one. -/
def mapSet (m : DocMap) (k : String) (v : DocumentRecord) : DocMap :=
  match m with
  | [] => [(k, v)]
  | (k₀, v₀) :: rest =>
      if k₀ == k then (k, v) :: rest else (k₀, v₀) :: mapSet rest k v
/-- The whole persisted state: the three storage slots of the contract.
`none` models a slot that was never written (read back through `unwrap_or`). -/
structure RegistryState where
  documents : Option DocMap
  userDocs : Addr → Option (List String)
  docCount : Option Nat
/-- The state of a fresh deployment, before any call. -/
def pristine : RegistryState :=
  { documents := none, userDocs := fun _ => none, docCount := none }
/-- What `register_document` and the queries read from the `DOCS` slot:
`get(&DOCUMENTS).unwrap_or(Map::new(&env))`. -/
def documentsOf (s : RegistryState) : DocMap :=
  s.documents.getD []
/-- Read of the `(USERDOCS, user)` slot: `get(&user_docs_key).unwrap_or(Vec::new(&env))`. -/
def userDocsOf (s : RegistryState) (u : Addr) : List String :=
  (s.userDocs u).getD []
/-- Read of the `COUNT` slot: `get(&DOC_COUNT).unwrap_or(0)`. -/
def docCountOf (s : RegistryState) : Nat :=
  s.docCount.getD 0
/-- The contract's init entry point (`fn initialize` in the source, a name
Lean reserves): sets the `COUNT` slot to 0 and touches nothing else. -/
def initRegistry (s : RegistryState) : RegistryState :=
  { s with docCount := some 0 }
/-- The state produced by running the init entry point on a fresh deployment. -/
def initState : RegistryState :=
  initRegistry pristine
/-- Entry point `register_document(env, caller, document_hash, document_name)`, after the
`caller.require_auth()` gate has passed.  `timestamp` and `block_number` are
the values the host ledger supplies (`env.ledger().timestamp()` /
`env.ledger().sequence()`).  Returns the `Result<u64, ContractError>` together
with the post-state. -/
def register_document (s : RegistryState) (caller : Addr)
    (document_hash document_name : String) (timestamp block_number : Nat) :
    Except ContractError Nat × RegistryState :=
  if document_hash.length ≠ 64 then
    (Except.error ContractError.InvalidHashLength, s)
  else if document_name.length = 0 ∨ document_name.length > 64 then
    (Except.error ContractError.InvalidDocumentName, s)
  else
    let documents := documentsOf s
    if containsKey documents document_hash then
      (Except.error ContractError.DocumentAlreadyExists, s)
    else
      let record : DocumentRecord :=
        { document_hash := document_hash, document_name := document_name,
          registered_by := caller, timestamp := timestamp,
          block_number := block_number }
      let updated_documents := mapSet documents document_hash record
      let user_docs := userDocsOf s caller ++ [document_hash]
      let count := docCountOf s
      (Except.ok (count + 1),
        { documents := some updated_documents
          userDocs := fun u => if u = caller then some user_docs else s.userDocs u
          docCount := some (count + 1) })
/-- Entry point `verify_document(env, document_hash)`. -/
def verify_document (s : RegistryState) (document_hash : String) : DocumentInfo :=
  match mapGet (documentsOf s) document_hash with
  | some record => { «exists» := true, record := some record }
  | none => { «exists» := false, record := none }
/-- The lookup loop of `get_user_documents`: resolve each hash through the
documents map, keeping order and silently dropping unresolved hashes. -/
def resolveHashes (documents : DocMap) : List String → List DocumentRecord
  | [] => []
  | h :: rest =>
      match mapGet documents h with
      | some record => record :: resolveHashes documents rest
      | none => resolveHashes documents rest
/-- Entry point `get_user_documents(env, user)`. -/
def get_user_documents (s : RegistryState) (user : Addr) : List DocumentRecord :=
  resolveHashes (documentsOf s) (userDocsOf s user)
/-- Entry point `get_document_count(env)`. -/
def get_document_count (s : RegistryState) : Nat :=
  docCountOf s
/-- The scan loop shared by `is_document_name_used` (as a Bool). -/
def anyNamed (document_name : String) : List DocumentRecord → Bool
  | [] => false
  | doc :: rest =>
      if doc.document_name == document_name then true else anyNamed document_name rest
/-- Entry point `is_document_name_used(env, user, document_name)`. -/
def is_document_name_used (s : RegistryState) (user : Addr) (document_name : String) : Bool :=
  anyNamed document_name (get_user_documents s user)
/-- The scan loop of `get_document_by_name`: first match wins. -/
def findNamed (document_name : String) : List DocumentRecord → DocumentInfo
  | [] => { «exists» := false, record := none }
  | doc :: rest =>
      if doc.document_name == document_name then { «exists» := true, record := some doc }
      else findNamed document_name rest
/-- Entry point `get_document_by_name(env, user, document_name)`. -/
def get_document_by_name (s : RegistryState) (user : Addr) (document_name : String) : DocumentInfo :=
  findNamed document_name (get_user_documents s user)
/-- The record built on a successful registration. -/
def regRecord (caller : Addr) (document_hash document_name : String)
    (timestamp block_number : Nat) : DocumentRecord :=
  { document_hash := document_hash, document_name := document_name,
    registered_by := caller, timestamp := timestamp, block_number := block_number }
/-- The post-state of a successful registration. -/
def regPost (s : RegistryState) (caller : Addr) (document_hash document_name : String)
    (timestamp block_number : Nat) : RegistryState :=
  { documents := some (mapSet (documentsOf s) document_hash
      (regRecord caller document_hash document_name timestamp block_number))
    userDocs := fun u =>
      if u = caller then some (userDocsOf s caller ++ [document_hash]) else s.userDocs u
    docCount := some (docCountOf s + 1) }
/-- A single `register_document` invocation: caller, hash, name, and the
ledger-supplied timestamp and sequence number at the time of the call. -/
structure RegCall where
  caller : Addr
  hash : String
  name : String
  ts : Nat
  bn : Nat
/-- The state after one call (query operations read the state and do not
change it, so traces of the mutating entry point cover all operation
sequences). -/
def applyCall (s : RegistryState) (c : RegCall) : RegistryState :=
  (register_document s c.caller c.hash c.name c.ts c.bn).2
/-- Replay a sequence of registration calls. -/
def runCalls (s : RegistryState) (cs : List RegCall) : RegistryState :=
  cs.foldl applyCall s
/-- Number of calls in a trace that succeed, replayed from `s`. -/
def countOk : RegistryState → List RegCall → Nat
  | _, [] => 0
  | s, c :: rest =>
      match (register_document s c.caller c.hash c.name c.ts c.bn).1 with
      | Except.ok _ => countOk (applyCall s c) rest + 1
      | Except.error _ => countOk (applyCall s c) rest
/-- The state invariant maintained by the contract: the counter matches the
cardinality of the documents map, every hash in a user's list resolves to a
record registered by that user under that hash, and user lists are
duplicate-free. -/
structure RegInv (s : RegistryState) : Prop where
  count_card : get_document_count s = (documentsOf s).length
  resolve : ∀ u : Addr, ∀ h ∈ userDocsOf s u,
      ∃ r, mapGet (documentsOf s) h = some r ∧ r.registered_by = u ∧ r.document_hash = h
  nodup : ∀ u : Addr, (userDocsOf s u).Nodup
/-- The record a call would create. -/
def callRecord (c : RegCall) : DocumentRecord :=
  regRecord c.caller c.hash c.name c.ts c.bn
/-- The records a user accumulates along a trace, replayed from `s`:
one per successful call made by that user, in call order. -/
def userTrace : RegistryState → List RegCall → Addr → List DocumentRecord
  | _, [], _ => []
  | s, c :: rest, u =>
      (match (register_document s c.caller c.hash c.name c.ts c.bn).1 with
        | Except.ok _ => if c.caller = u then [callRecord c] else []
        | Except.error _ => []) ++ userTrace (applyCall s c) rest u
/-- Concrete 64-character hash used in witness scenarios. -/
def hashA : String := "aaaaaaaaaaaaaaaaaaaaaaaaaaaaaaaaaaaaaaaaaaaaaaaaaaaaaaaaaaaaaaaa"
/-- A second concrete 64-character hash. -/
def hashB : String := "bbbbbbbbbbbbbbbbbbbbbbbbbbbbbbbbbbbbbbbbbbbbbbbbbbbbbbbbbbbbbbbb"
/-- The registration call of the witness scenario. -/
def regCall1 : RegCall := { caller := "alice", hash := hashA, name := "Deed", ts := 5, bn := 7 }
/-- The state after alice registers `hashA` under the name "Deed". -/
def regState1 : RegistryState := (register_document initState "alice" hashA "Deed" 5 7).2
/-- The record created by `regCall1`. -/
def record1 : DocumentRecord :=
  { document_hash := hashA, document_name := "Deed", registered_by := "alice",
    timestamp := 5, block_number := 7 }

theorem containsKey_eq_isSome (m : DocMap) (k : String) :
    containsKey m k = (mapGet m k).isSome := by
  induction m with
  | nil => rfl
  | cons p rest ih =>
      by_cases h : p.1 == k
      · simp [containsKey, mapGet, List.find?_cons, h]
      · simp [containsKey, mapGet, List.find?_cons, h] at ih ⊢
        exact ih
theorem mapGet_mapSet_self (m : DocMap) (k : String) (v : DocumentRecord) :
    mapGet (mapSet m k v) k = some v := by
  induction m with
  | nil => simp [mapSet, mapGet]
  | cons p rest ih =>
      by_cases h : p.1 == k
      · simp [mapSet, h, mapGet]
      · simp [mapSet, h, mapGet, List.find?_cons] at ih ⊢
        simpa [h] using ih
theorem mapGet_mapSet_ne (m : DocMap) (k k₁ : String) (v : DocumentRecord)
    (hne : k₁ ≠ k) : mapGet (mapSet m k v) k₁ = mapGet m k₁ := by
  induction m with
  | nil => simp [mapSet, mapGet, hne, Ne.symm hne]
  | cons p rest ih =>
      by_cases h : p.1 == k
      · simp only [beq_iff_eq] at h
        have hp : (p.1 == k₁) = false := by
          simp [h, Ne.symm hne]
        simp [mapSet, mapGet, List.find?_cons, h, hp, Ne.symm hne]
      · simp [mapSet, h, mapGet, List.find?_cons] at ih ⊢
        by_cases hp : p.1 == k₁ <;> simp [hp, ih]
theorem length_mapSet_fresh (m : DocMap) (k : String) (v : DocumentRecord)
    (h : containsKey m k = false) : (mapSet m k v).length = m.length + 1 := by
  induction m with
  | nil => rfl
  | cons p rest ih =>
      simp only [containsKey, List.any_cons, Bool.or_eq_false_iff] at h
      simp only [mapSet, h.1, Bool.false_eq_true, if_false, List.length_cons]
      rw [ih h.2]
theorem register_hash_invalid (s : RegistryState) (c : Addr) (h n : String) (ts bn : Nat)
    (hlen : h.length ≠ 64) :
    register_document s c h n ts bn = (Except.error ContractError.InvalidHashLength, s) := by
  unfold register_document
  rw [if_pos hlen]
theorem register_name_invalid (s : RegistryState) (c : Addr) (h n : String) (ts bn : Nat)
    (hlen : h.length = 64) (hname : n.length = 0 ∨ n.length > 64) :
    register_document s c h n ts bn = (Except.error ContractError.InvalidDocumentName, s) := by
  unfold register_document
  rw [if_neg (by simp [hlen]), if_pos hname]
theorem register_duplicate (s : RegistryState) (c : Addr) (h n : String) (ts bn : Nat)
    (hlen : h.length = 64) (hname : ¬(n.length = 0 ∨ n.length > 64))
    (hdup : containsKey (documentsOf s) h = true) :
    register_document s c h n ts bn = (Except.error ContractError.DocumentAlreadyExists, s) := by
  unfold register_document
  rw [if_neg (by simp [hlen]), if_neg hname]
  simp only [hdup, if_true]
theorem register_success (s : RegistryState) (c : Addr) (h n : String) (ts bn : Nat)
    (hlen : h.length = 64) (hname : ¬(n.length = 0 ∨ n.length > 64))
    (hfresh : containsKey (documentsOf s) h = false) :
    register_document s c h n ts bn =
      (Except.ok (docCountOf s + 1), regPost s c h n ts bn) := by
  unfold register_document
  rw [if_neg (by simp [hlen]), if_neg hname]
  simp only [hfresh, Bool.false_eq_true, if_false]
  rfl
theorem register_ok_inv (s : RegistryState) (c : Addr) (h n : String) (ts bn : Nat)
    (cnt : Nat) (s₂ : RegistryState)
    (hreg : register_document s c h n ts bn = (Except.ok cnt, s₂)) :
    h.length = 64 ∧ ¬(n.length = 0 ∨ n.length > 64) ∧
      containsKey (documentsOf s) h = false ∧
      cnt = docCountOf s + 1 ∧ s₂ = regPost s c h n ts bn := by
  by_cases hlen : h.length = 64
  · by_cases hname : n.length = 0 ∨ n.length > 64
    · rw [register_name_invalid s c h n ts bn hlen hname] at hreg
      simp at hreg
    · by_cases hfresh : containsKey (documentsOf s) h = true
      · rw [register_duplicate s c h n ts bn hlen hname hfresh] at hreg
        simp at hreg
      · have hfresh := Bool.eq_false_iff.mpr hfresh
        rw [register_success s c h n ts bn hlen hname hfresh] at hreg
        simp only [Prod.mk.injEq, Except.ok.injEq] at hreg
        exact ⟨hlen, hname, hfresh, hreg.1.symm, hreg.2.symm⟩
  · rw [register_hash_invalid s c h n ts bn hlen] at hreg
    simp at hreg
theorem register_cases (s : RegistryState) (c : Addr) (h n : String) (ts bn : Nat) :
    (∃ e, register_document s c h n ts bn = (Except.error e, s)) ∨
    (h.length = 64 ∧ ¬(n.length = 0 ∨ n.length > 64) ∧
      containsKey (documentsOf s) h = false ∧
      register_document s c h n ts bn =
        (Except.ok (docCountOf s + 1), regPost s c h n ts bn)) := by
  by_cases hlen : h.length = 64
  · by_cases hname : n.length = 0 ∨ n.length > 64
    · exact Or.inl ⟨_, register_name_invalid s c h n ts bn hlen hname⟩
    · by_cases hfresh : containsKey (documentsOf s) h = true
      · exact Or.inl ⟨_, register_duplicate s c h n ts bn hlen hname hfresh⟩
      · have hfresh := Bool.eq_false_iff.mpr hfresh
        exact Or.inr ⟨hlen, hname, hfresh, register_success s c h n ts bn hlen hname hfresh⟩
  · exact Or.inl ⟨_, register_hash_invalid s c h n ts bn hlen⟩
theorem documentsOf_regPost (s : RegistryState) (c : Addr) (h n : String) (ts bn : Nat) :
    documentsOf (regPost s c h n ts bn) =
      mapSet (documentsOf s) h (regRecord c h n ts bn) := rfl
theorem userDocsOf_regPost (s : RegistryState) (c : Addr) (h n : String) (ts bn : Nat)
    (u : Addr) :
    userDocsOf (regPost s c h n ts bn) u =
      if u = c then userDocsOf s c ++ [h] else userDocsOf s u := by
  by_cases hu : u = c <;> simp [userDocsOf, regPost, hu]
theorem count_regPost (s : RegistryState) (c : Addr) (h n : String) (ts bn : Nat) :
    get_document_count (regPost s c h n ts bn) = docCountOf s + 1 := rfl
theorem Inv_pristine : RegInv pristine := by
  refine ⟨rfl, ?_, ?_⟩
  · intro u h hmem
    simp [userDocsOf, pristine] at hmem
  · intro u
    simp [userDocsOf, pristine]
theorem Inv_initState : RegInv initState := by
  refine ⟨rfl, ?_, ?_⟩
  · intro u h hmem
    simp [userDocsOf, initState, initRegistry, pristine] at hmem
  · intro u
    simp [userDocsOf, initState, initRegistry, pristine]
theorem mapGet_fresh_ne (s : RegistryState) (hInv : RegInv s) (h : String)
    (hfresh : containsKey (documentsOf s) h = false)
    (u : Addr) (x : String) (hx : x ∈ userDocsOf s u) : x ≠ h := by
  intro hxh
  obtain ⟨r, hr, _⟩ := hInv.resolve u x hx
  rw [containsKey_eq_isSome] at hfresh
  rw [← hxh, hr] at hfresh
  simp at hfresh
theorem Inv_register (s : RegistryState) (hInv : RegInv s) (c : Addr) (h n : String)
    (ts bn : Nat) : RegInv (register_document s c h n ts bn).2 := by
  rcases register_cases s c h n ts bn with ⟨e, heq⟩ | ⟨hlen, hname, hfresh, heq⟩
  · rw [heq]
    exact hInv
  · rw [heq]
    have hne := mapGet_fresh_ne s hInv h hfresh
    refine ⟨?_, ?_, ?_⟩
    · rw [count_regPost, documentsOf_regPost,
        length_mapSet_fresh (documentsOf s) h _ hfresh]
      exact congrArg (fun t => t + 1) hInv.count_card
    · intro u x hx
      rw [userDocsOf_regPost] at hx
      rw [documentsOf_regPost]
      by_cases hu : u = c
      · rw [if_pos hu] at hx
        rcases List.mem_append.mp hx with hx | hx
        · obtain ⟨r, hr, hby, hh⟩ := hInv.resolve c x hx
          refine ⟨r, ?_, hu ▸ hby, hh⟩
          rw [mapGet_mapSet_ne _ _ _ _ (hne c x hx), hr]
        · have hxh : x = h := by simpa using hx
          subst hxh
          exact ⟨regRecord c x n ts bn, mapGet_mapSet_self .., hu ▸ rfl, rfl⟩
      · rw [if_neg hu] at hx
        obtain ⟨r, hr, hby, hh⟩ := hInv.resolve u x hx
        refine ⟨r, ?_, hby, hh⟩
        rw [mapGet_mapSet_ne _ _ _ _ (hne u x hx), hr]
    · intro u
      rw [userDocsOf_regPost]
      by_cases hu : u = c
      · rw [if_pos hu]
        refine List.Nodup.append (hInv.nodup c) (List.nodup_singleton h) ?_
        intro x hx hxh
        have hxh : x = h := by simpa using hxh
        exact hne c x hx hxh
      · rw [if_neg hu]
        exact hInv.nodup u
theorem Inv_runCalls (s : RegistryState) (hInv : RegInv s) (cs : List RegCall) :
    RegInv (runCalls s cs) := by
  induction cs generalizing s with
  | nil => exact hInv
  | cons c rest ih =>
      exact ih _ (Inv_register s hInv c.caller c.hash c.name c.ts c.bn)
theorem resolveHashes_eq_filterMap (documents : DocMap) (l : List String) :
    resolveHashes documents l = l.filterMap (mapGet documents) := by
  induction l with
  | nil => rfl
  | cons h rest ih =>
      rw [resolveHashes, List.filterMap_cons]
      cases hg : mapGet documents h <;> simp [hg, ih]
theorem resolveHashes_append (documents : DocMap) (l₁ l₂ : List String) :
    resolveHashes documents (l₁ ++ l₂) =
      resolveHashes documents l₁ ++ resolveHashes documents l₂ := by
  simp [resolveHashes_eq_filterMap, List.filterMap_append]
theorem resolveHashes_congr (d₁ d₂ : DocMap) (l : List String)
    (hagree : ∀ x ∈ l, mapGet d₁ x = mapGet d₂ x) :
    resolveHashes d₁ l = resolveHashes d₂ l := by
  induction l with
  | nil => rfl
  | cons h rest ih =>
      rw [resolveHashes, resolveHashes, hagree h (List.mem_cons_self h rest)]
      cases mapGet d₂ h <;>
        simp [ih fun x hx => hagree x (List.mem_cons_of_mem h hx)]
theorem get_user_documents_register (s : RegistryState) (hInv : RegInv s) (c : Addr)
    (h n : String) (ts bn : Nat) (u : Addr) :
    get_user_documents (register_document s c h n ts bn).2 u =
      get_user_documents s u ++
        (match (register_document s c h n ts bn).1 with
          | Except.ok _ => if c = u then [regRecord c h n ts bn] else []
          | Except.error _ => []) := by
  rcases register_cases s c h n ts bn with ⟨e, heq⟩ | ⟨hlen, hname, hfresh, heq⟩
  · rw [heq]
    simp
  · rw [heq]
    have hne := mapGet_fresh_ne s hInv h hfresh
    have hagree : ∀ x ∈ userDocsOf s u,
        mapGet (documentsOf (regPost s c h n ts bn)) x = mapGet (documentsOf s) x := by
      intro x hx
      rw [documentsOf_regPost]
      exact mapGet_mapSet_ne _ _ _ _ (hne u x hx)
    simp only
    unfold get_user_documents
    rw [userDocsOf_regPost]
    by_cases hu : u = c
    · subst hu
      rw [if_pos rfl, resolveHashes_append, resolveHashes_congr _ (documentsOf s) _ hagree]
      have hlast : resolveHashes (documentsOf (regPost s u h n ts bn)) [h] =
          [regRecord u h n ts bn] := by
        rw [resolveHashes, documentsOf_regPost, mapGet_mapSet_self]
        rfl
      rw [hlast, if_pos rfl]
    · rw [if_neg hu, resolveHashes_congr _ (documentsOf s) _ hagree,
        if_neg (fun hc => hu hc.symm), List.append_nil]
theorem get_user_documents_runCalls (s : RegistryState) (hInv : RegInv s)
    (cs : List RegCall) (u : Addr) :
    get_user_documents (runCalls s cs) u = get_user_documents s u ++ userTrace s cs u := by
  induction cs generalizing s with
  | nil => simp [runCalls, userTrace]
  | cons c rest ih =>
      have hstep := get_user_documents_register s hInv c.caller c.hash c.name c.ts c.bn u
      have hInv₂ : RegInv (applyCall s c) :=
        Inv_register s hInv c.caller c.hash c.name c.ts c.bn
      calc get_user_documents (runCalls (applyCall s c) rest) u
          = get_user_documents (applyCall s c) u ++ userTrace (applyCall s c) rest u :=
            ih _ hInv₂
        _ = get_user_documents s u ++ userTrace s (c :: rest) u := by
            rw [userTrace]
            rw [applyCall] at *
            rw [hstep, List.append_assoc]
            rfl
theorem userTrace_registered_by (s : RegistryState) (cs : List RegCall) (u : Addr)
    (r : DocumentRecord) (hr : r ∈ userTrace s cs u) : r.registered_by = u := by
  induction cs generalizing s with
  | nil => simp [userTrace] at hr
  | cons c rest ih =>
      rw [userTrace] at hr
      rcases List.mem_append.mp hr with hr | hr
      · cases hres : (register_document s c.caller c.hash c.name c.ts c.bn).1 with
        | ok v =>
            rw [hres] at hr
            by_cases hc : c.caller = u
            · rw [if_pos hc] at hr
              have : r = callRecord c := by simpa using hr
              rw [this, ← hc]
              rfl
            · rw [if_neg hc] at hr
              simp at hr
        | error e =>
            rw [hres] at hr
            simp at hr
      · exact ih _ hr
theorem count_runCalls (s : RegistryState) (cs : List RegCall) :
    get_document_count (runCalls s cs) = get_document_count s + countOk s cs := by
  induction cs generalizing s with
  | nil => simp [runCalls, countOk]
  | cons c rest ih =>
      rw [runCalls, List.foldl_cons]
      have ihs := ih (applyCall s c)
      rw [runCalls] at ihs
      cases hres : (register_document s c.caller c.hash c.name c.ts c.bn).1 with
      | ok v =>
          rcases register_cases s c.caller c.hash c.name c.ts c.bn with
            ⟨e, heq⟩ | ⟨_, _, _, heq⟩
          · rw [heq] at hres
            simp at hres
          · have hstep : get_document_count (applyCall s c) = get_document_count s + 1 := by
              rw [applyCall, heq]
              rfl
            have hcnt : countOk s (c :: rest) = countOk (applyCall s c) rest + 1 := by
              rw [countOk, hres]
            rw [hcnt, ihs, hstep]
            omega
      | error e =>
          rcases register_cases s c.caller c.hash c.name c.ts c.bn with
            ⟨e₂, heq⟩ | ⟨_, _, _, heq⟩
          · have hstep : applyCall s c = s := by
              rw [applyCall, heq]
            have hcnt : countOk s (c :: rest) = countOk (applyCall s c) rest := by
              rw [countOk, hres]
            rw [hcnt, ihs, hstep]
          · rw [heq] at hres
            simp at hres
theorem anyNamed_iff (n : String) (l : List DocumentRecord) :
    anyNamed n l = true ↔ ∃ r ∈ l, r.document_name = n := by
  induction l with
  | nil => simp [anyNamed]
  | cons d rest ih =>
      by_cases hd : d.document_name = n
      · simp [anyNamed, hd]
      · rw [anyNamed, if_neg (by simpa using hd)]
        simp only [List.mem_cons]
        constructor
        · intro hany
          obtain ⟨r, hr, hn⟩ := ih.mp hany
          exact ⟨r, Or.inr hr, hn⟩
        · rintro ⟨r, hr | hr, hn⟩
          · exact absurd (hr ▸ hn) hd
          · exact ih.mpr ⟨r, hr, hn⟩
theorem findNamed_no_match (n : String) (l : List DocumentRecord)
    (hnone : ∀ x ∈ l, x.document_name ≠ n) :
    findNamed n l = { «exists» := false, record := none } := by
  induction l with
  | nil => rfl
  | cons d rest ih =>
      rw [findNamed, if_neg (by simpa using hnone d (List.mem_cons_self d rest))]
      exact ih fun x hx => hnone x (List.mem_cons_of_mem d hx)
theorem findNamed_first_match (n : String) (l₁ : List DocumentRecord)
    (r : DocumentRecord) (l₂ : List DocumentRecord)
    (hl₁ : ∀ x ∈ l₁, x.document_name ≠ n) (hr : r.document_name = n) :
    findNamed n (l₁ ++ r :: l₂) = { «exists» := true, record := some r } := by
  induction l₁ with
  | nil =>
      rw [List.nil_append, findNamed, if_pos (by simpa using hr)]
  | cons d rest ih =>
      rw [List.cons_append, findNamed,
        if_neg (by simpa using hl₁ d (List.mem_cons_self d rest))]
      exact ih fun x hx => hl₁ x (List.mem_cons_of_mem d hx)
theorem findNamed_record_isSome (n : String) (l : List DocumentRecord) :
    (findNamed n l).record.isSome = (findNamed n l).«exists» := by
  induction l with
  | nil => rfl
  | cons d rest ih =>
      rw [findNamed]
      by_cases hd : d.document_name == n
      · rw [if_pos hd]
        rfl
      · rw [if_neg hd]
        exact ih
/-- C1: a duplicate hash (passing both input validations) is rejected with
`DocumentAlreadyExists`, whoever registered it first and whoever calls now,
and the whole registry state is returned unchanged. -/
theorem duplicate_hash_rejected_state_unchanged (s : RegistryState) (c : Addr)
    (h n : String) (ts bn : Nat) (hlen : h.length = 64)
    (hn₁ : 1 ≤ n.length) (hn₂ : n.length ≤ 64)
    (hdup : containsKey (documentsOf s) h = true) :
    register_document s c h n ts bn =
      (Except.error ContractError.DocumentAlreadyExists, s) :=
  register_duplicate s c h n ts bn hlen (by omega) hdup
theorem duplicate_hash_rejected_state_unchanged_witness :
    hashA.length = 64 ∧ 1 ≤ "Other".length ∧ "Other".length ≤ 64 ∧
      containsKey (documentsOf regState1) hashA = true ∧
      register_document regState1 "bob" hashA "Other" 6 8 =
        (Except.error ContractError.DocumentAlreadyExists, regState1) :=
  ⟨by decide, by decide, by decide, by decide,
    duplicate_hash_rejected_state_unchanged regState1 "bob" hashA "Other" 6 8
      (by decide) (by decide) (by decide) (by decide)⟩
/-- C2: a valid, fresh registration returns `Ok` of exactly the count that
`get_document_count` reads immediately afterwards, and that count is one more
than the count before the call. -/
theorem fresh_registration_returns_new_count (s : RegistryState) (c : Addr)
    (h n : String) (ts bn : Nat) (hlen : h.length = 64)
    (hn₁ : 1 ≤ n.length) (hn₂ : n.length ≤ 64)
    (hfresh : containsKey (documentsOf s) h = false) :
    (register_document s c h n ts bn).1 =
        Except.ok (get_document_count (register_document s c h n ts bn).2)
      ∧ get_document_count (register_document s c h n ts bn).2 =
        get_document_count s + 1 := by
  rw [register_success s c h n ts bn hlen (by omega) hfresh]
  exact ⟨rfl, rfl⟩
theorem fresh_registration_returns_new_count_witness :
    hashB.length = 64 ∧ 1 ≤ "Deed2".length ∧ "Deed2".length ≤ 64 ∧
      containsKey (documentsOf regState1) hashB = false ∧
      ((register_document regState1 "alice" hashB "Deed2" 9 10).1 =
          Except.ok (get_document_count (register_document regState1 "alice" hashB "Deed2" 9 10).2)
        ∧ get_document_count (register_document regState1 "alice" hashB "Deed2" 9 10).2 =
          get_document_count regState1 + 1) :=
  ⟨by decide, by decide, by decide, by decide,
    fresh_registration_returns_new_count regState1 "alice" hashB "Deed2" 9 10
      (by decide) (by decide) (by decide) (by decide)⟩
/-- C3: `register_document` returns `InvalidHashLength` exactly when the hash
length differs from 64; once the hash length is 64, it returns
`InvalidDocumentName` exactly when the name length is 0 or above 64; and the
hash check is decided first (a name error can only be reported for a hash
that passed, on any input). -/
theorem validation_order_and_boundaries (s : RegistryState) (c : Addr)
    (h n : String) (ts bn : Nat) :
    ((register_document s c h n ts bn).1 =
        Except.error ContractError.InvalidHashLength ↔ h.length ≠ 64)
    ∧ (h.length = 64 →
        ((register_document s c h n ts bn).1 =
            Except.error ContractError.InvalidDocumentName ↔
          (n.length = 0 ∨ n.length > 64)))
    ∧ ((register_document s c h n ts bn).1 =
        Except.error ContractError.InvalidDocumentName → h.length = 64) := by
  by_cases hlen : h.length = 64
  · by_cases hname : n.length = 0 ∨ n.length > 64
    · rw [register_name_invalid s c h n ts bn hlen hname]
      refine ⟨?_, fun _ => ?_, fun _ => hlen⟩
      · simp [hlen]
      · simp [hname]
    · by_cases hdup : containsKey (documentsOf s) h = true
      · rw [register_duplicate s c h n ts bn hlen hname hdup]
        refine ⟨?_, fun _ => ?_, ?_⟩ <;> simp [hlen, hname]
      · rw [register_success s c h n ts bn hlen hname (Bool.eq_false_iff.mpr hdup)]
        refine ⟨?_, fun _ => ?_, ?_⟩ <;> simp [hlen, hname]
  · rw [register_hash_invalid s c h n ts bn hlen]
    refine ⟨?_, fun hl => absurd hl hlen, ?_⟩ <;> simp [hlen]
theorem validation_order_and_boundaries_witness :
    hashA.length = 64 ∧
      ((register_document initState "alice" hashA "" 0 0).1 =
        Except.error ContractError.InvalidDocumentName) :=
  ⟨by decide,
    ((validation_order_and_boundaries initState "alice" hashA "" 0 0).2.1
      (by decide)).mpr (Or.inl (by decide))⟩
/-- C4: `verify_document` reports existence exactly as the documents map
does, returns exactly the stored record, and its `record` field is present
precisely when its `exists` field is true. -/
theorem verify_document_reports_store (s : RegistryState) (h : String) :
    (verify_document s h).«exists» = containsKey (documentsOf s) h
    ∧ (verify_document s h).record = mapGet (documentsOf s) h
    ∧ (verify_document s h).record.isSome = (verify_document s h).«exists» := by
  rw [containsKey_eq_isSome]
  unfold verify_document
  cases mapGet (documentsOf s) h <;> simp
/-- C5: `get_user_documents` resolves the user's stored hash list in order
through the documents map, silently skipping unresolvable hashes; on any
reachable state it returns exactly one record per successful registration by
that user, in registration order (so every returned record was registered by
that user), and a user with no stored list gets the empty list. -/
theorem get_user_documents_ordered_per_user (s₀ : RegistryState) (cs : List RegCall)
    (u : Addr) :
    get_user_documents s₀ u = (userDocsOf s₀ u).filterMap (mapGet (documentsOf s₀))
    ∧ (userDocsOf s₀ u = [] → get_user_documents s₀ u = [])
    ∧ get_user_documents (runCalls initState cs) u = userTrace initState cs u
    ∧ (∀ r ∈ get_user_documents (runCalls initState cs) u, r.registered_by = u) := by
  have htrace : get_user_documents (runCalls initState cs) u = userTrace initState cs u := by
    have := get_user_documents_runCalls initState Inv_initState cs u
    rw [this]
    have hempty : get_user_documents initState u = [] := rfl
    rw [hempty, List.nil_append]
  refine ⟨resolveHashes_eq_filterMap _ _, ?_, htrace, ?_⟩
  · intro hnil
    unfold get_user_documents
    rw [hnil]
    rfl
  · intro r hr
    rw [htrace] at hr
    exact userTrace_registered_by initState cs u r hr
theorem get_user_documents_ordered_per_user_witness :
    userDocsOf pristine "carol" = [] ∧ get_user_documents pristine "carol" = []
    ∧ get_user_documents (runCalls initState [regCall1]) "alice" = [record1]
    ∧ record1 ∈ get_user_documents (runCalls initState [regCall1]) "alice"
    ∧ record1.registered_by = "alice" :=
  ⟨by decide,
    (get_user_documents_ordered_per_user pristine [] "carol").2.1 (by decide),
    by rw [(get_user_documents_ordered_per_user initState [regCall1] "alice").2.2.1]; decide,
    by decide,
    (get_user_documents_ordered_per_user initState [regCall1] "alice").2.2.2
      record1 (by decide)⟩
/-- C6: starting from the state produced by the init entry point, after any
sequence of (mutating) `register_document` calls — queries read the state and
do not change it — the stored count equals the cardinality of the documents
map, which is the number of successful registrations in the sequence. -/
theorem doc_count_equals_document_cardinality (cs : List RegCall) :
    get_document_count (runCalls initState cs) =
        (documentsOf (runCalls initState cs)).length
    ∧ get_document_count (runCalls initState cs) = countOk initState cs := by
  refine ⟨(Inv_runCalls initState Inv_initState cs).count_card, ?_⟩
  rw [count_runCalls]
  show 0 + countOk initState cs = countOk initState cs
  omega
/-- C7: on every reachable state, every hash in a user's list is a key of the
documents map whose record was registered by that user, and every user's list
is duplicate-free. -/
theorem user_docs_consistent_with_documents (cs : List RegCall) :
    (∀ u : Addr, ∀ h ∈ userDocsOf (runCalls initState cs) u,
      ∃ r, mapGet (documentsOf (runCalls initState cs)) h = some r ∧
        r.registered_by = u)
    ∧ (∀ u : Addr, (userDocsOf (runCalls initState cs) u).Nodup) := by
  have hInv := Inv_runCalls initState Inv_initState cs
  refine ⟨?_, hInv.nodup⟩
  intro u h hmem
  obtain ⟨r, hr, hby, _⟩ := hInv.resolve u h hmem
  exact ⟨r, hr, hby⟩
theorem user_docs_consistent_with_documents_witness :
    hashA ∈ userDocsOf (runCalls initState [regCall1]) "alice"
    ∧ (∃ r, mapGet (documentsOf (runCalls initState [regCall1])) hashA = some r ∧
        r.registered_by = "alice") :=
  ⟨by decide,
    (user_docs_consistent_with_documents [regCall1]).1 "alice" hashA (by decide)⟩
/-- C8: `get_document_by_name` returns the first record of the user's
(registration-ordered) document list whose name matches, `exists=false` with
no record when none matches, and its `record` field is present exactly when
`exists` is true — per-user duplicate names cause no error. -/
theorem get_document_by_name_first_match (s : RegistryState) (u : Addr) (n : String) :
    (∀ l₁ r l₂, get_user_documents s u = l₁ ++ r :: l₂ →
        (∀ x ∈ l₁, x.document_name ≠ n) → r.document_name = n →
        get_document_by_name s u n = { «exists» := true, record := some r })
    ∧ ((∀ x ∈ get_user_documents s u, x.document_name ≠ n) →
        get_document_by_name s u n = { «exists» := false, record := none })
    ∧ (get_document_by_name s u n).record.isSome = (get_document_by_name s u n).«exists» := by
  refine ⟨?_, ?_, findNamed_record_isSome n _⟩
  · intro l₁ r l₂ hsplit hl₁ hr
    unfold get_document_by_name
    rw [hsplit]
    exact findNamed_first_match n l₁ r l₂ hl₁ hr
  · intro hnone
    unfold get_document_by_name
    exact findNamed_no_match n _ hnone
theorem get_document_by_name_first_match_witness :
    get_user_documents regState1 "alice" = [] ++ record1 :: [] ∧
      record1.document_name = "Deed" ∧
      get_document_by_name regState1 "alice" "Deed" =
        { «exists» := true, record := some record1 } :=
  ⟨by decide, by decide,
    (get_document_by_name_first_match regState1 "alice" "Deed").1 [] record1 []
      (by decide) (by simp) (by decide)⟩
/-- C9: `is_document_name_used` is true exactly when some record of that
user's documents carries the name — a per-user check, unaffected by other
users' names — and it is true for the caller immediately after the caller
successfully registers a document under that name. -/
theorem is_document_name_used_per_user (s : RegistryState) (u : Addr) (n : String) :
    (is_document_name_used s u n = true ↔
      ∃ r ∈ get_user_documents s u, r.document_name = n)
    ∧ (∀ (c : Addr) (h : String) (ts bn cnt : Nat) (s₂ : RegistryState),
        register_document s c h n ts bn = (Except.ok cnt, s₂) →
        is_document_name_used s₂ c n = true) := by
  refine ⟨anyNamed_iff n _, ?_⟩
  intro c h ts bn cnt s₂ hreg
  obtain ⟨hlen, hname, hfresh, hcnt, hs₂⟩ := register_ok_inv s c h n ts bn cnt s₂ hreg
  subst hs₂
  unfold is_document_name_used
  apply (anyNamed_iff n _).mpr
  refine ⟨regRecord c h n ts bn, ?_, rfl⟩
  unfold get_user_documents
  rw [userDocsOf_regPost, if_pos rfl, resolveHashes_append]
  apply List.mem_append_right
  rw [resolveHashes, documentsOf_regPost, mapGet_mapSet_self]
  simp [resolveHashes]
theorem is_document_name_used_per_user_witness :
    is_document_name_used regState1 "alice" "Deed" = true
    ∧ is_document_name_used regState1 "bob" "Deed" = false
    ∧ (∃ r ∈ get_user_documents regState1 "alice", r.document_name = "Deed")
    ∧ register_document initState "alice" hashA "Deed" 5 7 = (Except.ok 1, regState1) :=
  ⟨by decide, by decide,
    (is_document_name_used_per_user regState1 "alice" "Deed").1.mp (by decide),
    rfl⟩
/-- Helper for C10: `register_document` computes the same result on the
never-initialized state as on the freshly initialized one, for every input
(both read an absent documents map as empty and an absent counter as 0). -/
theorem register_result_pristine_initState (c : Addr) (h n : String) (ts bn : Nat) :
    (register_document pristine c h n ts bn).1 =
      (register_document initState c h n ts bn).1 := by
  by_cases hlen : h.length = 64
  · by_cases hname : n.length = 0 ∨ n.length > 64
    · rw [register_name_invalid pristine c h n ts bn hlen hname,
        register_name_invalid initState c h n ts bn hlen hname]
    · have hf₁ : containsKey (documentsOf pristine) h = false := rfl
      have hf₂ : containsKey (documentsOf initState) h = false := rfl
      rw [register_success pristine c h n ts bn hlen hname hf₁,
        register_success initState c h n ts bn hlen hname hf₂]
      rfl
  · rw [register_hash_invalid pristine c h n ts bn hlen,
      register_hash_invalid initState c h n ts bn hlen]
/-- C10: the pristine, never-initialized state is observationally the
initialized state: every query reads its default (count 0, no documents, no
user lists) and a valid registration succeeds with `Ok 1` — running the init
entry point first is not a precondition for any operation. -/
theorem pristine_equals_initialized :
    get_document_count pristine = get_document_count initState
    ∧ (∀ h, verify_document pristine h = verify_document initState h)
    ∧ (∀ u, get_user_documents pristine u = get_user_documents initState u)
    ∧ (∀ u n, is_document_name_used pristine u n = is_document_name_used initState u n)
    ∧ (∀ u n, get_document_by_name pristine u n = get_document_by_name initState u n)
    ∧ (∀ (c : Addr) (h n : String) (ts bn : Nat),
        (register_document pristine c h n ts bn).1 =
          (register_document initState c h n ts bn).1)
    ∧ get_document_count pristine = 0
    ∧ (∀ h, verify_document pristine h = { «exists» := false, record := none })
    ∧ (∀ u, get_user_documents pristine u = [])
    ∧ (∀ (c : Addr) (h n : String) (ts bn : Nat), h.length = 64 →
        1 ≤ n.length → n.length ≤ 64 →
        (register_document pristine c h n ts bn).1 = Except.ok 1) := by
  refine ⟨rfl, fun h => rfl, fun u => rfl, fun u n => rfl, fun u n => rfl,
    register_result_pristine_initState, rfl, fun h => rfl, fun u => rfl, ?_⟩
  intro c h n ts bn hlen hn₁ hn₂
  rw [register_success pristine c h n ts bn hlen (by omega) rfl]
  rfl
theorem pristine_equals_initialized_witness :
    hashA.length = 64 ∧ 1 ≤ "Deed".length ∧ "Deed".length ≤ 64 ∧
      (register_document pristine "alice" hashA "Deed" 5 7).1 = Except.ok 1 :=
  ⟨by decide, by decide, by decide,
    pristine_equals_initialized.2.2.2.2.2.2.2.2.2 "alice" hashA "Deed" 5 7
      (by decide) (by decide) (by decide)⟩
